import Mathlib

/-!
Shallow embedding of the WheatCloudSleep server core:
`Source/Server/CloudSleepServer/WheatCommand.cpp` (frame codec and command
protocol) and `Source/Server/CloudSleepServer/sleeper.cpp` (connection actor).
Byte strings are modelled as `List Char`; C `int` as `Int`; fallible vector
indexing (`operator[]`, whose out-of-bounds use is undefined behavior in the
source) as `Option`-returning access.
-/

/-- The command-type enumeration `WheatCommandType` from `WheatCommand.h`,
as used by `WheatCommand.cpp` (values named in `GetCommandTypeFromString`). -/
inductive WheatCommandType where
  | unknown
  | name
  | type
  | sleep
  | getup
  | chat
  | move
  | pos
deriving DecidableEq

/-- The parsed-command record `WheatCommand`: a type tag, the two-slot integer
parameter array `nParam` (modelled as two fields), and the string parameter. -/
structure WheatCommand where
  type : WheatCommandType := WheatCommandType.unknown
  nParam0 : Int := 0
  nParam1 : Int := 0
  strParam : List Char := []
deriving DecidableEq

/-- Digit-accumulation loop of C `atoi`: consume decimal digits, stop at the
first non-digit. -/
def atoiDigits : List Char → Nat → Nat
  | [], acc => acc
  | c :: cs, acc =>
    if c.isDigit then atoiDigits cs (acc * 10 + (c.toNat - 48)) else acc

/-- C `isspace` for the default locale. -/
def isSpaceChar (c : Char) : Bool :=
  c = ' ' || c = '\t' || c = '\n' || c = '\x0b' || c = '\x0c' || c = '\r'

/-- C `atoi`: skip leading whitespace, optional sign, read leading digits,
yield 0 when no digits are present. -/
def atoi (s : List Char) : Int :=
  match s.dropWhile isSpaceChar with
  | '-' :: rest => - (atoiDigits rest 0 : Int)
  | '+' :: rest => (atoiDigits rest 0 : Int)
  | t => (atoiDigits t 0 : Int)

/-- The scanning loop of `WheatCommandProgrammer::CutMessage` (4-argument
overload), with `knives = pieces - 1` remaining cuts, `cur` the characters of
the current field accumulated since the last split point (`substr(l, r-l)`),
and the third argument the unscanned remainder of the buffer.  Reaching the
end of the buffer (`r == len`) pushes the current field and ends the loop;
a delimiter with `knives == 0` pushes the whole remaining suffix
(`substr(l)`, delimiter included) and breaks; a delimiter with
`knives != 0` closes the current field and decrements `knives`. -/
def cutAux (d : Char) : Int → List Char → List Char → List (List Char)
  | _, cur, [] => [cur]
  | knives, cur, c :: cs =>
    if c = d then
      if knives = 0 then [cur ++ c :: cs]
      else cur :: cutAux d (knives - 1) [] cs
    else cutAux d knives (cur ++ [c]) cs

/-- `WheatCommandProgrammer::CutMessage(buf, len, delimiterChar, pieces)`:
`pieces == 1` returns the whole buffer as one field without scanning;
otherwise the scan runs with `pieces - 1` remaining cuts (negative for
`pieces <= 0`, so the `remainKnives == 0` absorption test never fires and
every delimiter splits). -/
def CutMessage (buf : List Char) (d : Char) (pieces : Int) : List (List Char) :=
  if pieces = 1 then [buf] else cutAux d (pieces - 1) [] buf

/-- Modelled from the spec: the two-argument call `CutMessage(buf, ',')` used
by `Parse` takes the `pieces` default argument from the declaration in
`WheatCommand.h`, which is not under `src/`.  The comment inside
`CutMessage` in `WheatCommand.cpp` documents the default as `pieces = 0`
(full split), matching spec §4.1's `maxFields == 0` split-on-every-delimiter
mode. -/
def CutMessageDefault (buf : List Char) (d : Char) : List (List Char) :=
  CutMessage buf d 0

/-- `WheatCommandProgrammer::GetCommandTypeFromString`: case-sensitive exact
match against the fixed token table, `unknown` otherwise. -/
def GetCommandTypeFromString (sz : List Char) : WheatCommandType :=
  if sz = "name".toList then WheatCommandType.name
  else if sz = "type".toList then WheatCommandType.type
  else if sz = "sleep".toList then WheatCommandType.sleep
  else if sz = "getup".toList then WheatCommandType.getup
  else if sz = "chat".toList then WheatCommandType.chat
  else if sz = "move".toList then WheatCommandType.move
  else if sz = "pos".toList then WheatCommandType.pos
  else WheatCommandType.unknown

/-- `WheatCommandProgrammer::Parse`.  The source indexes
`vecCuttedBuf[0]`, `vecCuttedBuf[1]`, `vecPosCutTemp[0]` and
`vecPosCutTemp[1]` with unchecked `std::vector::operator[]`; each access is
modelled as `Option`-returning, so `none` marks exactly an out-of-bounds
access (undefined behavior in the source). -/
def Parse (buf : List Char) : Option WheatCommand :=
  let vecCuttedBuf := CutMessage buf '$' 2
  if vecCuttedBuf.length ≤ 1 then
    some { type := WheatCommandType.unknown }
  else do
    let f0 ← vecCuttedBuf[0]?
    let f1 ← vecCuttedBuf[1]?
    match GetCommandTypeFromString f0 with
    | WheatCommandType.name =>
        some { type := WheatCommandType.name, strParam := f1 }
    | WheatCommandType.type =>
        some { type := WheatCommandType.type, nParam0 := atoi f1 }
    | WheatCommandType.sleep =>
        some { type := WheatCommandType.sleep, nParam0 := atoi f1 }
    | WheatCommandType.getup =>
        some { type := WheatCommandType.getup }
    | WheatCommandType.chat =>
        some { type := WheatCommandType.chat, strParam := f1 }
    | WheatCommandType.move => do
        let vecPosCutTemp := CutMessageDefault f1 ','
        let p0 ← vecPosCutTemp[0]?
        let p1 ← vecPosCutTemp[1]?
        some { type := WheatCommandType.move, nParam0 := atoi p0, nParam1 := atoi p1 }
    | WheatCommandType.pos => do
        let vecPosCutTemp := CutMessageDefault f1 ','
        let p0 ← vecPosCutTemp[0]?
        let p1 ← vecPosCutTemp[1]?
        some { type := WheatCommandType.pos, nParam0 := atoi p0, nParam1 := atoi p1 }
    | WheatCommandType.unknown =>
        some { type := WheatCommandType.unknown }

/-- `WheatCommandProgrammer::MakeMessage`: the source body is unconditionally
`return nullptr;`.  The null pointer is modelled as `none`. -/
def MakeMessage (_command : WheatCommand) : Option (List Char) :=
  none

/-! Connection actor (`sleeper.cpp`). -/

/-- The command variant dispatched in `Sleeper::Reader`.  Constructor and
field names are those appearing in the `std::visit` lambdas of `sleeper.cpp`
and in `Sleeper::MakeSelfInfo`; the full alternative list lives in
`wheat_command.h`, which is not under `src/`, so the remaining variants
(`CmdSleeper`, and `CmdUnknown` for unrecognized frames) are modelled from
the spec's §3 command list.  Positions are (x, y) integer pairs. -/
inductive Cmd where
  | CmdSleeper (id : Int)
  | CmdName (name : List Char)
  | CmdType (sex : Int)
  | CmdSleep (bed_id : Int)
  | CmdGetup
  | CmdChat (msg : List Char)
  | CmdPos (pos : Int × Int)
  | CmdMove (pos : Int × Int)
  | CmdVoteKickStart (kick_id : Int)
  | CmdVoteAgree
  | CmdVoteRefuse
  | CmdUnknown
deriving DecidableEq

/-- One observable call made on the shared `Room` collaborator. -/
inductive RoomCall where
  | sleep (id : Int) (bed : Int)
  | getup (id : Int)
  | voteKickStart (kick : Int)
  | agree (id : Int)
  | refuse (id : Int)
  | deliver (id : Int) (msg : List Char)
deriving DecidableEq

/-- The per-connection mutable state touched by the `Reader` dispatch:
`m_name`, `m_sex`, `m_pos`, `m_bed_id`. -/
structure SleeperState where
  m_name : List Char := []
  m_sex : Int := 0
  m_pos : Int × Int := (0, 0)
  m_bed_id : Int := -1
deriving DecidableEq

/-- The per-frame dispatch of `Sleeper::Reader` (the `std::visit` over the
parsed command followed by the conditional `m_room.Deliver(m_id, msg)`).
`roomSleep` is the outcome of the Room collaborator's `Sleep(id, bed)` call.
Returns the updated actor state and the ordered list of Room calls; `forward`
starts `true` and is cleared by a rejected `CmdSleep`, by `CmdVoteAgree` and
by `CmdVoteRefuse`. -/
def ReaderDispatch (roomSleep : Int → Int → Bool) (m_id : Int)
    (st : SleeperState) (msg : List Char) : Cmd → SleeperState × List RoomCall
  | Cmd.CmdSleep bed =>
      if roomSleep m_id bed then
        ({ st with m_bed_id := bed }, [RoomCall.sleep m_id bed, RoomCall.deliver m_id msg])
      else
        (st, [RoomCall.sleep m_id bed])
  | Cmd.CmdGetup => (st, [RoomCall.getup m_id, RoomCall.deliver m_id msg])
  | Cmd.CmdName n => ({ st with m_name := n }, [RoomCall.deliver m_id msg])
  | Cmd.CmdType sx => ({ st with m_sex := sx }, [RoomCall.deliver m_id msg])
  | Cmd.CmdChat _ => (st, [RoomCall.deliver m_id msg])
  | Cmd.CmdPos p => ({ st with m_pos := p }, [RoomCall.deliver m_id msg])
  | Cmd.CmdMove p => ({ st with m_pos := p }, [RoomCall.deliver m_id msg])
  | Cmd.CmdVoteKickStart kid =>
      (st, [RoomCall.voteKickStart kid, RoomCall.deliver m_id msg])
  | Cmd.CmdVoteAgree => (st, [RoomCall.agree m_id])
  | Cmd.CmdVoteRefuse => (st, [RoomCall.refuse m_id])
  | Cmd.CmdSleeper _ => (st, [RoomCall.deliver m_id msg])
  | Cmd.CmdUnknown => (st, [RoomCall.deliver m_id msg])

/-- The teardown-relevant state of a `Sleeper`: the `m_is_stoped` flag and a
counter for each side effect of `Stop()` (Room `Leave`, socket `close`,
timer `cancel`, traffic `OnConnectionClose`). -/
structure StopState where
  m_is_stoped : Bool := false
  roomLeaveCount : Nat := 0
  sockCloseCount : Nat := 0
  timerCancelCount : Nat := 0
  trafficCloseCount : Nat := 0
deriving DecidableEq

/-- `Sleeper::Stop`: early-returns when `m_is_stoped` is already set,
otherwise sets it and performs each teardown side effect once. -/
def Stop (s : StopState) : StopState :=
  if s.m_is_stoped then s
  else
    { m_is_stoped := true,
      roomLeaveCount := s.roomLeaveCount + 1,
      sockCloseCount := s.sockCloseCount + 1,
      timerCancelCount := s.timerCancelCount + 1,
      trafficCloseCount := s.trafficCloseCount + 1 }

/-- `Sleeper::MakeSelfInfo`, abstracted over the encoding
`PackCommandWithId` (defined in `wheat_command.h`/`.cpp`, not under `src/`):
concatenates the packed id-announcement, name and sex commands, then the
packed bed command when `m_bed_id != -1` and the packed position command
otherwise. -/
def MakeSelfInfo (pack : Int → Cmd → List Char) (m_id : Int)
    (st : SleeperState) : List Char :=
  pack m_id (Cmd.CmdSleeper m_id) ++ pack m_id (Cmd.CmdName st.m_name) ++
    pack m_id (Cmd.CmdType st.m_sex) ++
    (if st.m_bed_id ≠ -1 then pack m_id (Cmd.CmdSleep st.m_bed_id)
     else pack m_id (Cmd.CmdPos st.m_pos))

/-- Joining a field list with the delimiter character interposed. -/
def joinWithChar (d : Char) : List (List Char) → List Char
  | [] => []
  | [x] => x
  | x :: y :: rest => x ++ d :: joinWithChar d (y :: rest)

/-- The suffix of a string starting one past its `k`-th delimiter occurrence
(1-based); `[]` when fewer than `k` delimiters occur. -/
def suffixAfter (d : Char) : Nat → List Char → List Char
  | 0, s => s
  | _ + 1, [] => []
  | k + 1, c :: cs => if c = d then suffixAfter d k cs else suffixAfter d (k + 1) cs

/-! Basic lemmas about the codec loop. -/

theorem cutAux_ne_nil (d : Char) (knives : Int) (cur rest : List Char) :
    cutAux d knives cur rest ≠ [] := by
  induction rest generalizing knives cur with
  | nil => simp [cutAux]
  | cons c cs ih =>
    simp only [cutAux]
    by_cases hc : c = d
    · by_cases hk : knives = 0 <;> simp [hc, hk]
    · simpa [hc] using ih knives (cur ++ [c])

theorem cutAux_zero_knives (d : Char) (cur rest : List Char) :
    cutAux d 0 cur rest = [cur ++ rest] := by
  induction rest generalizing cur with
  | nil => simp [cutAux]
  | cons c cs ih =>
    by_cases hc : c = d
    · simp [cutAux, hc]
    · simpa [cutAux, hc] using ih (cur ++ [c])

theorem cutAux_length (d : Char) (k : Nat) (cur rest : List Char) :
    (cutAux d (k : Int) cur rest).length = min k (rest.count d) + 1 := by
  induction rest generalizing k cur with
  | nil => simp [cutAux]
  | cons c cs ih =>
    by_cases hc : c = d
    · subst hc
      cases k with
      | zero => simp [cutAux]
      | succ k' =>
        have hk : ((k' + 1 : Nat) : Int) ≠ 0 := by positivity
        have hcast : ((k' + 1 : Nat) : Int) - 1 = (k' : Int) := by push_cast; ring
        have hres : cutAux c ((k' + 1 : Nat) : Int) cur (c :: cs)
            = cur :: cutAux c (k' : Int) [] cs := by
          have hk2 : ¬((k' : Int) + 1 = 0) := by omega
          simp [cutAux, hcast, hk2]
        rw [hres, List.length_cons, ih k' [], List.count_cons_self]
        omega
    · have hcount : (c :: cs).count d = cs.count d := by
        simp [List.count_cons, hc]
      simpa [cutAux, hc, hcount] using ih k (cur ++ [c])

theorem joinWithChar_cons_ne_nil (d : Char) (x : List Char)
    (xs : List (List Char)) (h : xs ≠ []) :
    joinWithChar d (x :: xs) = x ++ d :: joinWithChar d xs := by
  cases xs with
  | nil => exact absurd rfl h
  | cons y ys => rfl

theorem getLast?_cons_ne_nil {α : Type} (x : α) (xs : List α) (h : xs ≠ []) :
    (x :: xs).getLast? = xs.getLast? := by
  cases xs with
  | nil => exact absurd rfl h
  | cons y ys => simp [List.getLast?_cons_cons]

theorem cutAux_join (d : Char) (knives : Int) (cur rest : List Char) :
    joinWithChar d (cutAux d knives cur rest) = cur ++ rest := by
  induction rest generalizing knives cur with
  | nil => simp [cutAux, joinWithChar]
  | cons c cs ih =>
    by_cases hc : c = d
    · subst hc
      by_cases hk : knives = 0
      · simp [cutAux, hk, joinWithChar]
      · rw [show cutAux c knives cur (c :: cs) = cur :: cutAux c (knives - 1) [] cs by
            simp [cutAux, hk],
          joinWithChar_cons_ne_nil c cur _ (cutAux_ne_nil c (knives - 1) [] cs),
          ih (knives - 1) []]
        simp
    · rw [show cutAux d knives cur (c :: cs) = cutAux d knives (cur ++ [c]) cs by
          simp [cutAux, hc],
        ih knives (cur ++ [c])]
      simp

theorem cutAux_getLast_of_le_count (d : Char) (k : Nat) (cur rest : List Char)
    (h1 : 1 ≤ k) (h2 : k ≤ rest.count d) :
    (cutAux d (k : Int) cur rest).getLast? = some (suffixAfter d k rest) := by
  induction rest generalizing k cur with
  | nil => simp at h2; omega
  | cons c cs ih =>
    by_cases hc : c = d
    · subst hc
      have hk : ¬((k : Int) = 0) := by
        have : (1 : Int) ≤ (k : Int) := by exact_mod_cast h1
        omega
      have hcast : (k : Int) - 1 = ((k - 1 : Nat) : Int) := by
        have : (1 : Int) ≤ (k : Int) := by exact_mod_cast h1
        push_cast [Nat.cast_sub h1]
        ring
      have hres : cutAux c (k : Int) cur (c :: cs)
          = cur :: cutAux c ((k - 1 : Nat) : Int) [] cs := by
        simp [cutAux, hk, hcast]
      rw [hres, getLast?_cons_ne_nil _ _ (cutAux_ne_nil c _ [] cs)]
      have hsuf : suffixAfter c k (c :: cs) = suffixAfter c (k - 1) cs := by
        obtain ⟨k', rfl⟩ : ∃ k', k = k' + 1 := ⟨k - 1, by omega⟩
        simp [suffixAfter]
      rw [hsuf]
      by_cases hk1 : k - 1 = 0
      · rw [hk1]
        simp only [Nat.cast_zero, cutAux_zero_knives]
        simp [suffixAfter]
      · have hcnt : k - 1 ≤ cs.count c := by
          have := h2
          simp [List.count_cons_self] at this
          omega
        exact ih (k - 1) [] (by omega) hcnt
    · have hcount : (c :: cs).count d = cs.count d := by
        simp [List.count_cons, hc]
      have hres : cutAux d (k : Int) cur (c :: cs) = cutAux d (k : Int) (cur ++ [c]) cs := by
        simp [cutAux, hc]
      have hsuf : suffixAfter d k (c :: cs) = suffixAfter d k cs := by
        obtain ⟨k', rfl⟩ : ∃ k', k = k' + 1 := ⟨k - 1, by omega⟩
        simp [suffixAfter, hc]
      rw [hres, hsuf]
      exact ih k (cur ++ [c]) h1 (hcount ▸ h2)

theorem cutAux_getLast_of_count_lt (d : Char) (k : Nat) (cur rest : List Char)
    (h : rest.count d < k) :
    (cutAux d (k : Int) cur rest).getLast?
      = some (if rest.count d = 0 then cur ++ rest else suffixAfter d (rest.count d) rest) := by
  induction rest generalizing k cur with
  | nil => simp [cutAux]
  | cons c cs ih =>
    by_cases hc : c = d
    · subst hc
      have hk : ¬((k : Int) = 0) := by
        have : 1 ≤ k := by omega
        have : (1 : Int) ≤ (k : Int) := by exact_mod_cast this
        omega
      have h1 : 1 ≤ k := by omega
      have hcast : (k : Int) - 1 = ((k - 1 : Nat) : Int) := by
        push_cast [Nat.cast_sub h1]
        ring
      have hres : cutAux c (k : Int) cur (c :: cs)
          = cur :: cutAux c ((k - 1 : Nat) : Int) [] cs := by
        simp [cutAux, hk, hcast]
      have hcnt : cs.count c < k - 1 := by
        have := h
        simp [List.count_cons_self] at this
        omega
      rw [hres, getLast?_cons_ne_nil _ _ (cutAux_ne_nil c _ [] cs), ih (k - 1) [] hcnt]
      have hccount : (c :: cs).count c = cs.count c + 1 := List.count_cons_self c cs
      rw [hccount]
      simp only [Nat.add_eq_zero, OfNat.ofNat_ne_zero, and_false, if_false,
        Nat.succ_ne_zero]
      have hsuf : suffixAfter c (cs.count c + 1) (c :: cs) = suffixAfter c (cs.count c) cs := by
        simp [suffixAfter]
      rw [hsuf]
      by_cases h0 : cs.count c = 0
      · rw [h0]
        simp [suffixAfter, h0]
      · simp [h0]
    · have hcount : (c :: cs).count d = cs.count d := by
        simp [List.count_cons, hc]
      have hres : cutAux d (k : Int) cur (c :: cs) = cutAux d (k : Int) (cur ++ [c]) cs := by
        simp [cutAux, hc]
      rw [hres, hcount, ih k (cur ++ [c]) (hcount ▸ h)]
      by_cases h0 : cs.count d = 0
      · simp [h0]
      · have hsuf : suffixAfter d (cs.count d) (c :: cs) = suffixAfter d (cs.count d) cs := by
          obtain ⟨k', hk'⟩ : ∃ k', cs.count d = k' + 1 := ⟨cs.count d - 1, by omega⟩
          rw [hk']
          simp [suffixAfter, hc]
        simp [h0, hsuf]

theorem cutAux_one_knife (d : Char) (s cur : List Char) :
    (d ∉ s ∧ cutAux d 1 cur s = [cur ++ s]) ∨
      ∃ a b, s = a ++ d :: b ∧ d ∉ a ∧ cutAux d 1 cur s = [cur ++ a, b] := by
  induction s generalizing cur with
  | nil => exact Or.inl ⟨List.not_mem_nil d, by simp [cutAux]⟩
  | cons c cs ih =>
    by_cases hc : c = d
    · subst hc
      refine Or.inr ⟨[], cs, rfl, List.not_mem_nil c, ?_⟩
      simp [cutAux, cutAux_zero_knives]
    · rcases ih (cur ++ [c]) with ⟨hmem, heq⟩ | ⟨a, b, hs, hmem, heq⟩
      · refine Or.inl ⟨?_, ?_⟩
        · intro hdm
          rcases List.mem_cons.mp hdm with h | h
          · exact hc h.symm
          · exact hmem h
        · rw [show cutAux d 1 cur (c :: cs) = cutAux d 1 (cur ++ [c]) cs by
              simp [cutAux, hc], heq]
          simp
      · refine Or.inr ⟨c :: a, b, by simp [hs], ?_, ?_⟩
        · intro hdm
          rcases List.mem_cons.mp hdm with h | h
          · exact hc h.symm
          · exact hmem h
        · rw [show cutAux d 1 cur (c :: cs) = cutAux d 1 (cur ++ [c]) cs by
              simp [cutAux, hc], heq]
          simp
  
/-- Structure of the top-level two-field split: either the delimiter is
absent and the whole buffer is the single field, or the buffer splits at its
first delimiter occurrence into a delimiter-free head field and a verbatim
tail field. -/
theorem CutMessage_two (s : List Char) (d : Char) :
    (d ∉ s ∧ CutMessage s d 2 = [s]) ∨
      ∃ a b, s = a ++ d :: b ∧ d ∉ a ∧ CutMessage s d 2 = [a, b] := by
  have h2 : (2 : Int) ≠ 1 := by omega
  rcases cutAux_one_knife d s [] with ⟨hmem, heq⟩ | ⟨a, b, hs, hmem, heq⟩
  · exact Or.inl ⟨hmem, by rw [CutMessage, if_neg h2]; simpa using heq⟩
  · exact Or.inr ⟨a, b, hs, hmem, by rw [CutMessage, if_neg h2]; simpa using heq⟩

theorem Parse_no_delim (s : List Char) (heq : CutMessage s '$' 2 = [s]) :
    Parse s = some { type := WheatCommandType.unknown } := by
  simp [Parse, heq]

theorem Parse_unknown_of_split (s a b : List Char) (heq : CutMessage s '$' 2 = [a, b])
    (ht : GetCommandTypeFromString a = WheatCommandType.unknown) :
    Parse s = some { type := WheatCommandType.unknown } := by
  simp [Parse, heq, ht]

theorem Parse_type_of_split (s a b : List Char)
    (heq : CutMessage s '$' 2 = [a, b]) (c : WheatCommand)
    (hc : Parse s = some c) : c.type = GetCommandTypeFromString a := by
  simp only [Parse, heq] at hc
  simp at hc
  rcases ht : GetCommandTypeFromString a with _ | _ | _ | _ | _ | _ | _ | _ <;>
    rw [ht] at hc
  · simp at hc; rw [← hc]
  · simp at hc; rw [← hc]
  · simp at hc; rw [← hc]
  · simp at hc; rw [← hc]
  · simp at hc; rw [← hc]
  · simp at hc; rw [← hc]
  · rcases h0 : (CutMessageDefault b ',')[0]? with _ | p0
    · simp [h0] at hc
    · rcases h1 : (CutMessageDefault b ',')[1]? with _ | p1
      · simp [h0, h1] at hc
      · simp [h0, h1] at hc; rw [← hc]
  · rcases h0 : (CutMessageDefault b ',')[0]? with _ | p0
    · simp [h0] at hc
    · rcases h1 : (CutMessageDefault b ',')[1]? with _ | p1
      · simp [h0, h1] at hc
      · simp [h0, h1] at hc; rw [← hc]

theorem cut_pos_frame (payload : List Char) :
    CutMessage ('p' :: 'o' :: 's' :: '$' :: payload) '$' 2
      = [['p', 'o', 's'], payload] := by
  rw [CutMessage, if_neg (by omega : ¬(2 : Int) = 1)]
  simp +decide [cutAux, cutAux_zero_knives]

theorem cut_move_frame (payload : List Char) :
    CutMessage ('m' :: 'o' :: 'v' :: 'e' :: '$' :: payload) '$' 2
      = [['m', 'o', 'v', 'e'], payload] := by
  rw [CutMessage, if_neg (by omega : ¬(2 : Int) = 1)]
  simp +decide [cutAux, cutAux_zero_knives]

/-! Claim theorems. -/

/-- C1: the claim says every move/pos frame whose payload has fewer than two
comma-fields gets a defined malformed-frame outcome and every vector access
is in bounds.  The code instead evaluates `vecPosCutTemp[1]` on a
single-field comma split: at the frames `"pos$5"`, `"pos$"` and `"move$7"`
the embedded `Parse` reaches the out-of-bounds access (`none`), so the
source performs undefined behavior there rather than a defined outcome. -/
theorem c1_move_pos_payload_oob :
    Parse ("pos$5".toList) = none ∧ Parse ("pos$".toList) = none ∧
      Parse ("move$7".toList) = none := by
  refine ⟨?_, ?_, ?_⟩ <;> decide

/-- C6: the claim says `MakeMessage` returns a non-null byte sequence
encoding every command.  The source body is unconditionally
`return nullptr;`: the result is the null pointer (`none`) for the concrete
`getup` command and for every command. -/
theorem c6_makeMessage_null :
    MakeMessage { type := WheatCommandType.getup } = none ∧
      ∀ command : WheatCommand, MakeMessage command = none :=
  ⟨rfl, fun _ => rfl⟩

/-- C9: for every input, delimiter and piece count `n ≥ 0`, joining the
fields returned by `CutMessage` with the delimiter as separator restores the
input exactly — splitting loses, duplicates and alters no byte in any of the
three modes (`n = 0` full split, `n = 1` no scan, `n ≥ 2` bounded with
absorption). -/
theorem c9_cut_join_roundtrip (s : List Char) (d : Char) (n : Int)
    (hn : 0 ≤ n) : joinWithChar d (CutMessage s d n) = s := by
  by_cases h1 : n = 1
  · subst h1
    simp [CutMessage, joinWithChar]
  · rw [CutMessage, if_neg h1]
    simpa using cutAux_join d (n - 1) [] s

/-- Witness for C9 at `s = "a,b,,c$"`, `d = ','`, `n = 0`. -/
theorem c9_cut_join_roundtrip_witness :
    (0 : Int) ≤ 0 ∧
      joinWithChar ',' (CutMessage ("a,b,,c$".toList) ',' 0) = "a,b,,c$".toList :=
  ⟨by decide, c9_cut_join_roundtrip ("a,b,,c$".toList) ',' 0 (by decide)⟩

/-- C2: for every input and `maxFields ≥ 2`, `CutMessage` returns at most
`maxFields` fields; when it returns exactly `maxFields` fields the last field
is, verbatim, the input's suffix starting one past the
`(maxFields - 1)`-th delimiter occurrence; and when the input has fewer than
`maxFields - 1` delimiters the result has fewer than `maxFields` fields, the
last being the text after the final consumed delimiter. -/
theorem c2_split_bounded_absorb (s : List Char) (d : Char) (p : Int)
    (hp : 2 ≤ p) :
    ((CutMessage s d p).length : Int) ≤ p ∧
    (((CutMessage s d p).length : Int) = p →
      (CutMessage s d p).getLast? = some (suffixAfter d (p - 1).toNat s)) ∧
    ((s.count d : Int) < p - 1 →
      ((CutMessage s d p).length : Int) < p ∧
      (CutMessage s d p).getLast? = some (suffixAfter d (s.count d) s)) := by
  have h1 : p ≠ 1 := by omega
  have hkp : (((p - 1).toNat : Nat) : Int) = p - 1 := by omega
  have hk1 : 1 ≤ (p - 1).toNat := by omega
  have hcm : CutMessage s d p = cutAux d (((p - 1).toNat : Nat) : Int) [] s := by
    rw [CutMessage, if_neg h1, hkp]
  have hlen : (CutMessage s d p).length = min (p - 1).toNat (s.count d) + 1 := by
    rw [hcm, cutAux_length]
  refine ⟨?_, ?_, ?_⟩
  · rw [hlen]
    push_cast
    omega
  · intro hEq
    have hck : (p - 1).toNat ≤ s.count d := by
      rw [hlen] at hEq
      push_cast at hEq
      omega
    rw [hcm]
    exact cutAux_getLast_of_le_count d (p - 1).toNat [] s hk1 hck
  · intro hlt
    have hck : s.count d < (p - 1).toNat := by omega
    refine ⟨?_, ?_⟩
    · rw [hlen]
      push_cast
      omega
    · rw [hcm, cutAux_getLast_of_count_lt d (p - 1).toNat [] s hck]
      by_cases h0 : s.count d = 0
      · rw [h0]
        simp [suffixAfter]
      · simp [h0]

/-- Witness for C2 at `s = "a$b$c"`, `d = '$'`, `maxFields = 2`. -/
theorem c2_split_bounded_absorb_witness :
    (2 : Int) ≤ 2 ∧
      (((CutMessage ("a$b$c".toList) '$' 2).length : Int) ≤ 2 ∧
      (((CutMessage ("a$b$c".toList) '$' 2).length : Int) = 2 →
        (CutMessage ("a$b$c".toList) '$' 2).getLast?
          = some (suffixAfter '$' ((2 : Int) - 1).toNat ("a$b$c".toList))) ∧
      ((("a$b$c".toList).count '$' : Int) < 2 - 1 →
        ((CutMessage ("a$b$c".toList) '$' 2).length : Int) < 2 ∧
        (CutMessage ("a$b$c".toList) '$' 2).getLast?
          = some (suffixAfter '$' (("a$b$c".toList).count '$') ("a$b$c".toList)))) :=
  ⟨by decide, c2_split_bounded_absorb ("a$b$c".toList) '$' 2 (by decide)⟩

/-- C5: `Parse` yields an `unknown` command exactly when the frame contains
no `$` delimiter (so the split leaves fewer than 2 fields) or when the first
split field fails the case-sensitive token-table match (empty token
included); in particular `"getup"` parses to `unknown` while `"getup$"`
parses to `getup`. -/
theorem c5_unknown_iff :
    (∀ s : List Char,
        (∃ c, Parse s = some c ∧ c.type = WheatCommandType.unknown) ↔
          ('$' ∉ s ∨
            GetCommandTypeFromString ((CutMessage s '$' 2).headD [])
              = WheatCommandType.unknown)) ∧
    (∃ c, Parse ("getup".toList) = some c ∧ c.type = WheatCommandType.unknown) ∧
    (∃ c, Parse ("getup$".toList) = some c ∧ c.type = WheatCommandType.getup) := by
  refine ⟨?_, ⟨_, rfl, by decide⟩, ⟨_, rfl, by decide⟩⟩
  intro s
  rcases CutMessage_two s '$' with ⟨hmem, heq⟩ | ⟨a, b, hs, hmem, heq⟩
  · exact iff_of_true ⟨_, Parse_no_delim s heq, rfl⟩ (Or.inl hmem)
  · have hmem' : '$' ∈ s := by
      rw [hs]
      simp
    have hheadD : (CutMessage s '$' 2).headD [] = a := by
      rw [heq]
      rfl
    by_cases ht : GetCommandTypeFromString a = WheatCommandType.unknown
    · exact iff_of_true ⟨_, Parse_unknown_of_split s a b heq ht, rfl⟩
        (Or.inr (by rw [hheadD]; exact ht))
    · refine iff_of_false ?_ ?_
      · rintro ⟨c, hc, hct⟩
        exact ht ((Parse_type_of_split s a b heq c hc) ▸ hct)
      · rintro (h | h)
        · exact h hmem'
        · rw [hheadD] at h
          exact ht h

/-- Witness for C5: instantiating the general equivalence at the concrete
frame `"chat"` (no delimiter). -/
theorem c5_unknown_iff_witness :
    '$' ∉ ("chat".toList) ∨
      GetCommandTypeFromString ((CutMessage ("chat".toList) '$' 2).headD [])
        = WheatCommandType.unknown :=
  (c5_unknown_iff.1 ("chat".toList)).mp
    ⟨{ type := WheatCommandType.unknown }, by decide, by decide⟩

/-- C10: the comma split of a move/pos payload is unbounded (the `pieces`
default is 0, split on every comma): for both `move$` and `pos$` frames,
whenever the payload splits into at least two comma-fields, `Parse` decodes
the first two fields and silently ignores the rest; in particular
`"pos$1,2,3"` parses to a `pos` command with parameters 1 and 2 (and
`"move$1,2,3"` to the corresponding `move` command) rather than a
malformed-frame outcome. -/
theorem c10_move_pos_comma_split_unbounded :
    (∀ payload f0 f1 rest,
        CutMessageDefault payload ',' = f0 :: f1 :: rest →
        (∃ c, Parse ('p' :: 'o' :: 's' :: '$' :: payload) = some c ∧
          c.type = WheatCommandType.pos ∧ c.nParam0 = atoi f0 ∧
          c.nParam1 = atoi f1) ∧
        (∃ c, Parse ('m' :: 'o' :: 'v' :: 'e' :: '$' :: payload) = some c ∧
          c.type = WheatCommandType.move ∧ c.nParam0 = atoi f0 ∧
          c.nParam1 = atoi f1)) ∧
    (∃ c, Parse ("pos$1,2,3".toList) = some c ∧
      c.type = WheatCommandType.pos ∧ c.nParam0 = 1 ∧ c.nParam1 = 2) ∧
    (∃ c, Parse ("move$1,2,3".toList) = some c ∧
      c.type = WheatCommandType.move ∧ c.nParam0 = 1 ∧ c.nParam1 = 2) := by
  refine ⟨?_, ⟨_, rfl, by decide, by decide, by decide⟩,
    ⟨_, rfl, by decide, by decide, by decide⟩⟩
  intro payload f0 f1 rest hcut
  constructor
  · have heq := cut_pos_frame payload
    have hg : GetCommandTypeFromString ['p', 'o', 's'] = WheatCommandType.pos := by
      decide
    refine ⟨{ type := WheatCommandType.pos, nParam0 := atoi f0, nParam1 := atoi f1 },
      ?_, rfl, rfl, rfl⟩
    simp [Parse, heq, hg, hcut]
  · have heq := cut_move_frame payload
    have hg : GetCommandTypeFromString ['m', 'o', 'v', 'e']
        = WheatCommandType.move := by
      decide
    refine ⟨{ type := WheatCommandType.move, nParam0 := atoi f0, nParam1 := atoi f1 },
      ?_, rfl, rfl, rfl⟩
    simp [Parse, heq, hg, hcut]

/-- Witness for C10 at payload `"4,5,6"`, for the move frame and the pos
frame alike. -/
theorem c10_move_pos_comma_split_unbounded_witness :
    CutMessageDefault ("4,5,6".toList) ','
        = "4".toList :: "5".toList :: ["6".toList] ∧
      ((∃ c, Parse ('p' :: 'o' :: 's' :: '$' :: "4,5,6".toList) = some c ∧
        c.type = WheatCommandType.pos ∧ c.nParam0 = atoi ("4".toList) ∧
        c.nParam1 = atoi ("5".toList)) ∧
      (∃ c, Parse ('m' :: 'o' :: 'v' :: 'e' :: '$' :: "4,5,6".toList) = some c ∧
        c.type = WheatCommandType.move ∧ c.nParam0 = atoi ("4".toList) ∧
        c.nParam1 = atoi ("5".toList))) :=
  ⟨by decide, c10_move_pos_comma_split_unbounded.1 ("4,5,6".toList) ("4".toList)
    ("5".toList) ["6".toList] (by decide)⟩

/-- C3: for an inbound `Sleep{bed}` frame, when the Room's `Sleep` call
returns `false` the actor's `m_bed_id` is unchanged and the raw frame is
never handed to `Deliver`; when it returns `true` the actor adopts the
requested bed and the raw frame is relayed. -/
theorem c3_sleep_reject_suppresses_relay (roomSleep : Int → Int → Bool)
    (m_id bed : Int) (st : SleeperState) (msg : List Char) :
    (roomSleep m_id bed = false →
      (ReaderDispatch roomSleep m_id st msg (Cmd.CmdSleep bed)).1.m_bed_id
          = st.m_bed_id ∧
      ∀ i m, RoomCall.deliver i m
          ∉ (ReaderDispatch roomSleep m_id st msg (Cmd.CmdSleep bed)).2) ∧
    (roomSleep m_id bed = true →
      (ReaderDispatch roomSleep m_id st msg (Cmd.CmdSleep bed)).1.m_bed_id = bed ∧
      RoomCall.deliver m_id msg
          ∈ (ReaderDispatch roomSleep m_id st msg (Cmd.CmdSleep bed)).2) := by
  constructor
  · intro hf
    simp [ReaderDispatch, hf]
  · intro ht
    simp [ReaderDispatch, ht]

/-- Witness for C3 with a Room that rejects the bed claim. -/
theorem c3_sleep_reject_suppresses_relay_witness :
    ((fun _ _ => false) : Int → Int → Bool) 1 5 = false ∧
      ((ReaderDispatch (fun _ _ => false) 1 {} [] (Cmd.CmdSleep 5)).1.m_bed_id
          = ({} : SleeperState).m_bed_id ∧
        ∀ i m, RoomCall.deliver i m
            ∉ (ReaderDispatch (fun _ _ => false) 1 {} [] (Cmd.CmdSleep 5)).2) :=
  ⟨rfl, (c3_sleep_reject_suppresses_relay (fun _ _ => false) 1 5 {} []).1 rfl⟩

/-- C4: `Stop` is idempotent — from an unstopped state, two calls perform
each teardown side effect (Room leave, socket close, timer cancel, traffic
close-notification) exactly once, the second call is a no-op (as is any call
on an already-stopped state), and the stopped flag only moves false → true. -/
theorem c4_stop_idempotent (s : StopState) (h : s.m_is_stoped = false) :
    Stop (Stop s) = Stop s ∧
    (Stop (Stop s)).roomLeaveCount = s.roomLeaveCount + 1 ∧
    (Stop (Stop s)).sockCloseCount = s.sockCloseCount + 1 ∧
    (Stop (Stop s)).timerCancelCount = s.timerCancelCount + 1 ∧
    (Stop (Stop s)).trafficCloseCount = s.trafficCloseCount + 1 ∧
    (Stop s).m_is_stoped = true ∧
    (∀ t : StopState, t.m_is_stoped = true → Stop t = t) := by
  refine ⟨?_, ?_, ?_, ?_, ?_, ?_, ?_⟩
  · simp [Stop, h]
  · simp [Stop, h]
  · simp [Stop, h]
  · simp [Stop, h]
  · simp [Stop, h]
  · simp [Stop, h]
  · intro t ht
    simp [Stop, ht]

/-- Witness for C4 from the freshly-constructed teardown state. -/
theorem c4_stop_idempotent_witness :
    ({} : StopState).m_is_stoped = false ∧
      (Stop (Stop ({} : StopState)) = Stop ({} : StopState) ∧
      (Stop (Stop ({} : StopState))).roomLeaveCount
          = ({} : StopState).roomLeaveCount + 1 ∧
      (Stop (Stop ({} : StopState))).sockCloseCount
          = ({} : StopState).sockCloseCount + 1 ∧
      (Stop (Stop ({} : StopState))).timerCancelCount
          = ({} : StopState).timerCancelCount + 1 ∧
      (Stop (Stop ({} : StopState))).trafficCloseCount
          = ({} : StopState).trafficCloseCount + 1 ∧
      (Stop ({} : StopState)).m_is_stoped = true ∧
      (∀ t : StopState, t.m_is_stoped = true → Stop t = t)) :=
  ⟨rfl, c4_stop_idempotent {} rfl⟩

/-- C7: dispatching `VoteAgree` calls the Room's `Agree` with this
connection's id and dispatching `VoteRefuse` calls `Refuse` with this id,
neither ever reaching `Deliver`; every other command whose relay decision
stays at the default "yes" (a successful `Sleep` included, `Unknown`
included) hands the original raw frame bytes — not a re-encoding — to
`Deliver`. -/
theorem c7_votes_consumed_rest_relayed_raw (roomSleep : Int → Int → Bool)
    (m_id : Int) (st : SleeperState) (msg : List Char) :
    ReaderDispatch roomSleep m_id st msg Cmd.CmdVoteAgree
        = (st, [RoomCall.agree m_id]) ∧
    ReaderDispatch roomSleep m_id st msg Cmd.CmdVoteRefuse
        = (st, [RoomCall.refuse m_id]) ∧
    (∀ i m, RoomCall.deliver i m
        ∉ (ReaderDispatch roomSleep m_id st msg Cmd.CmdVoteAgree).2) ∧
    (∀ i m, RoomCall.deliver i m
        ∉ (ReaderDispatch roomSleep m_id st msg Cmd.CmdVoteRefuse).2) ∧
    (∀ c : Cmd, c ≠ Cmd.CmdVoteAgree → c ≠ Cmd.CmdVoteRefuse →
      (∀ b, c = Cmd.CmdSleep b → roomSleep m_id b = true) →
      RoomCall.deliver m_id msg ∈ (ReaderDispatch roomSleep m_id st msg c).2) := by
  refine ⟨rfl, rfl, by simp [ReaderDispatch], by simp [ReaderDispatch], ?_⟩
  intro c hA hR hS
  cases c
  case CmdVoteAgree => exact absurd rfl hA
  case CmdVoteRefuse => exact absurd rfl hR
  case CmdSleep b => simp [ReaderDispatch, hS b rfl]
  all_goals simp [ReaderDispatch]

/-- Witness for C7: a chat frame is relayed with its raw bytes. -/
theorem c7_votes_consumed_rest_relayed_raw_witness :
    RoomCall.deliver 1 ['x']
        ∈ (ReaderDispatch (fun _ _ => true) 1 {} ['x'] (Cmd.CmdChat ['y'])).2 :=
  (c7_votes_consumed_rest_relayed_raw (fun _ _ => true) 1 {} ['x']).2.2.2.2
    (Cmd.CmdChat ['y']) (by decide) (by decide)
    (fun b h => Cmd.noConfusion h)

/-- C8: `MakeSelfInfo` is the concatenation, in order, of the packed
id-announcement, name and sex/type commands, followed by exactly one of the
packed bed command (when `m_bed_id ≠ -1`) or the packed position command
(when `m_bed_id = -1`) — never both, never neither. -/
theorem c8_self_info_order (pack : Int → Cmd → List Char) (m_id : Int)
    (st : SleeperState) :
    (st.m_bed_id ≠ -1 →
      MakeSelfInfo pack m_id st
        = pack m_id (Cmd.CmdSleeper m_id) ++ pack m_id (Cmd.CmdName st.m_name) ++
            pack m_id (Cmd.CmdType st.m_sex) ++
            pack m_id (Cmd.CmdSleep st.m_bed_id)) ∧
    (st.m_bed_id = -1 →
      MakeSelfInfo pack m_id st
        = pack m_id (Cmd.CmdSleeper m_id) ++ pack m_id (Cmd.CmdName st.m_name) ++
            pack m_id (Cmd.CmdType st.m_sex) ++
            pack m_id (Cmd.CmdPos st.m_pos)) := by
  constructor
  · intro h
    simp [MakeSelfInfo, h]
  · intro h
    simp [MakeSelfInfo, h]

/-- Witness for C8 on an occupied-bed state. -/
theorem c8_self_info_order_witness :
    ({ m_bed_id := 5 } : SleeperState).m_bed_id ≠ -1 ∧
      MakeSelfInfo (fun _ _ => ([] : List Char)) 1 { m_bed_id := 5 }
        = (fun _ _ => ([] : List Char)) 1 (Cmd.CmdSleeper 1) ++
            (fun _ _ => ([] : List Char)) 1
              (Cmd.CmdName ({ m_bed_id := 5 } : SleeperState).m_name) ++
            (fun _ _ => ([] : List Char)) 1
              (Cmd.CmdType ({ m_bed_id := 5 } : SleeperState).m_sex) ++
            (fun _ _ => ([] : List Char)) 1
              (Cmd.CmdSleep ({ m_bed_id := 5 } : SleeperState).m_bed_id) :=
  ⟨by decide, (c8_self_info_order (fun _ _ => ([] : List Char)) 1
    { m_bed_id := 5 }).1 (by decide)⟩
